import Mathlib

/-!
# Verification of the restore map phase (`src/worker/restore_map.go`)

A shallow embedding of the map phase of the backup-restore pipeline:
the map-entry framing (`mapEntry`, `toBuffer`), the sort/spill path
(`writeNow`, `writeToDisk` with its partition-key sampling), the record
processor (`processKV` with its filters, posting and schema branches and
version migrations), and the sequential essence of the planner
(`RunMapper`'s manifest walk, drop-set evolution and returned maxima).

Bytes are modelled as `Nat` (the encoders only emit values `< 256`);
byte strings as `List Nat`.  Functions of external packages (badger's
`y.KeyWithTs`/`y.CompareKeys`, the protobuf codecs, `posting.Rollup`,
`x.GalaxyAttr`, `x.AttrFrom2103`, `strconv.ParseUint`) are not part of
the repository's sources; each carries a doc comment saying what it
models and follows the specification's description of it.  Concurrency
(channel plumbing, the worker pool) is modelled by the sequential data
flow it computes.
-/

/-- Big-endian byte string of width `w` for `n % 256^w` (the Go conversions
`uint16(..)`/`uint64(..)` truncate the same way). -/
def beBytes : Nat → Nat → List Nat
  | 0, _ => []
  | w + 1, n => beBytes w (n / 256) ++ [n % 256]

/-- Big-endian decoding, as `binary.BigEndian.Uint16`/`Uint64` compute it. -/
def beDec (l : List Nat) : Nat := l.foldl (fun acc b => acc * 256 + b) 0

theorem beBytes_length (w n : Nat) : (beBytes w n).length = w := by
  induction w generalizing n with
  | zero => rfl
  | succ w ih => simp [beBytes, ih]

theorem beDec_append (a b : List Nat) :
    beDec (a ++ b) = b.foldl (fun acc v => acc * 256 + v) (beDec a) := by
  simp [beDec, List.foldl_append]

theorem beDec_beBytes (w n : Nat) : beDec (beBytes w n) = n % 256 ^ w := by
  induction w generalizing n with
  | zero => simp [beBytes, beDec, Nat.mod_one]
  | succ w ih =>
    have h1 : beDec (beBytes w (n / 256) ++ [n % 256])
        = beDec (beBytes w (n / 256)) * 256 + n % 256 := by
      simp [beDec_append, beDec]
    have h2 : n % 256 ^ (w + 1) = (n / 256 % 256 ^ w) * 256 + n % 256 := by
      have hpow : (256 : Nat) ^ (w + 1) = 256 * 256 ^ w := by ring
      rw [hpow, Nat.mod_mul]
      ring
    rw [beBytes, h1, ih, h2]

/-- Model of `bytes.Compare`: lexicographic byte-string comparison. -/
def bytesCompare : List Nat → List Nat → Ordering
  | [], [] => .eq
  | [], _ :: _ => .lt
  | _ :: _, [] => .gt
  | a :: as, b :: bs =>
    if a < b then .lt else if b < a then .gt else bytesCompare as bs

/-- Modelled from the library interface the source imports: badger's
`y.CompareKeys` compares the key without its final 8 bytes first, then the
8-byte suffix.  This is the "native key comparison" of the spec. -/
def compareKeys (a b : List Nat) : Ordering :=
  (bytesCompare (a.take (a.length - 8)) (b.take (b.length - 8))).then
    (bytesCompare (a.drop (a.length - 8)) (b.drop (b.length - 8)))

theorem bytesCompare_eq_iff : ∀ a b : List Nat, bytesCompare a b = .eq ↔ a = b
  | [], [] => by simp [bytesCompare]
  | [], _ :: _ => by simp [bytesCompare]
  | _ :: _, [] => by simp [bytesCompare]
  | a :: as, b :: bs => by
    simp only [bytesCompare]
    split
    · next h =>
      constructor
      · intro hc; exact absurd hc (by decide)
      · intro hc
        injection hc with h1 h2
        omega
    · split
      · next h1 h2 =>
        constructor
        · intro hc; exact absurd hc (by decide)
        · intro hc
          injection hc with h3 h4
          omega
      · next h1 h2 =>
        have hab : a = b := by omega
        subst hab
        rw [bytesCompare_eq_iff as bs]
        simp

theorem bytesCompare_swap : ∀ a b : List Nat, bytesCompare b a = (bytesCompare a b).swap
  | [], [] => by simp [bytesCompare, Ordering.swap]
  | [], _ :: _ => by simp [bytesCompare, Ordering.swap]
  | _ :: _, [] => by simp [bytesCompare, Ordering.swap]
  | a :: as, b :: bs => by
    simp only [bytesCompare]
    rcases Nat.lt_trichotomy a b with h | h | h
    · simp only [if_pos h, if_neg (show ¬b < a by omega)]
      rfl
    · subst h
      simp only [if_neg (show ¬a < a by omega)]
      exact bytesCompare_swap as bs
    · simp only [if_pos h, if_neg (show ¬a < b by omega)]
      rfl

theorem bytesCompare_lt_trans :
    ∀ a b c : List Nat, bytesCompare a b = .lt → bytesCompare b c = .lt →
      bytesCompare a c = .lt
  | [], [], _, hab, _ => by simp [bytesCompare] at hab
  | [], _ :: _, [], _, hbc => by simp [bytesCompare] at hbc
  | [], _ :: _, _ :: _, _, _ => by simp [bytesCompare]
  | _ :: _, [], _, hab, _ => by simp [bytesCompare] at hab
  | _ :: _, _ :: _, [], _, hbc => by simp [bytesCompare] at hbc
  | a :: as, b :: bs, c :: cs, hab, hbc => by
    simp only [bytesCompare] at hab hbc ⊢
    rcases Nat.lt_trichotomy a b with h1 | h1 | h1
    · rcases Nat.lt_trichotomy b c with h2 | h2 | h2
      · rw [if_pos (by omega)]
      · subst h2; rw [if_pos h1]
      · rw [if_pos h2, if_neg (by omega)] at hbc
        exact absurd hbc (by decide)
    · subst h1
      rcases Nat.lt_trichotomy a c with h2 | h2 | h2
      · rw [if_pos h2]
      · subst h2
        simp only [if_neg (show ¬a < a by omega)] at hab hbc ⊢
        exact bytesCompare_lt_trans as bs cs hab hbc
      · simp only [if_neg (show ¬a < c by omega), if_pos h2] at hbc
        exact absurd hbc (by decide)
    · rw [if_neg (by omega), if_pos h1] at hab
      exact absurd hab (by decide)

theorem bytesCompare_self (a : List Nat) : bytesCompare a a = .eq :=
  (bytesCompare_eq_iff a a).mpr rfl

theorem then_lt (o : Ordering) : Ordering.lt.then o = .lt := rfl

theorem then_eq (o : Ordering) : Ordering.eq.then o = o := rfl

theorem then_gt (o : Ordering) : Ordering.gt.then o = .gt := rfl

theorem compareKeys_eq_iff (a b : List Nat) : compareKeys a b = .eq ↔ a = b := by
  unfold compareKeys
  rcases hpre : bytesCompare (a.take (a.length - 8)) (b.take (b.length - 8)) with _ | _ | _
  · rw [then_lt]
    constructor
    · intro h; exact absurd h (by decide)
    · rintro rfl
      rw [bytesCompare_self] at hpre
      exact absurd hpre (by decide)
  · rw [then_eq]
    constructor
    · intro h
      have h1 := (bytesCompare_eq_iff _ _).mp hpre
      have h2 := (bytesCompare_eq_iff _ _).mp h
      calc a = a.take (a.length - 8) ++ a.drop (a.length - 8) := (List.take_append_drop _ _).symm
        _ = b.take (b.length - 8) ++ b.drop (b.length - 8) := by rw [h1, h2]
        _ = b := List.take_append_drop _ _
    · rintro rfl
      exact bytesCompare_self _
  · rw [then_gt]
    constructor
    · intro h; exact absurd h (by decide)
    · rintro rfl
      rw [bytesCompare_self] at hpre
      exact absurd hpre (by decide)

theorem compareKeys_swap (a b : List Nat) : compareKeys b a = (compareKeys a b).swap := by
  unfold compareKeys
  rw [bytesCompare_swap (a.take (a.length - 8)) (b.take (b.length - 8)),
    bytesCompare_swap (a.drop (a.length - 8)) (b.drop (b.length - 8))]
  cases bytesCompare (a.take (a.length - 8)) (b.take (b.length - 8)) <;> rfl

theorem compareKeys_lt_trans {a b c : List Nat} (hab : compareKeys a b = .lt)
    (hbc : compareKeys b c = .lt) : compareKeys a c = .lt := by
  unfold compareKeys at hab hbc ⊢
  rcases hpab : bytesCompare (a.take (a.length - 8)) (b.take (b.length - 8)) with _ | _ | _
  · rcases hpbc : bytesCompare (b.take (b.length - 8)) (c.take (c.length - 8)) with _ | _ | _
    · rw [bytesCompare_lt_trans _ _ _ hpab hpbc, then_lt]
    · have h2 := (bytesCompare_eq_iff _ _).mp hpbc
      rw [← h2, hpab, then_lt]
    · rw [hpbc, then_gt] at hbc
      exact absurd hbc (by decide)
  · have h1 := (bytesCompare_eq_iff _ _).mp hpab
    rw [hpab, then_eq] at hab
    rcases hpbc : bytesCompare (b.take (b.length - 8)) (c.take (c.length - 8)) with _ | _ | _
    · rw [h1, hpbc, then_lt]
    · have h2 := (bytesCompare_eq_iff _ _).mp hpbc
      rw [hpbc, then_eq] at hbc
      rw [h1, h2, bytesCompare_self, then_eq]
      exact bytesCompare_lt_trans _ _ _ hab hbc
    · rw [hpbc, then_gt] at hbc
      exact absurd hbc (by decide)
  · rw [hpab, then_gt] at hab
    exact absurd hab (by decide)

/-- Strict native-key order (`y.CompareKeys(a, b) < 0`). -/
def keyLT (a b : List Nat) : Prop := compareKeys a b = .lt

/-- Non-strict native-key order: `y.CompareKeys(a, b) <= 0`. -/
def keyLE (a b : List Nat) : Prop := compareKeys a b ≠ .gt

instance : DecidableRel keyLT := fun a b => by unfold keyLT; infer_instance

instance : DecidableRel keyLE := fun a b => by unfold keyLE; infer_instance

theorem keyLE_iff (a b : List Nat) : keyLE a b ↔ keyLT a b ∨ a = b := by
  unfold keyLE keyLT
  constructor
  · intro h
    rcases hc : compareKeys a b with _ | _ | _
    · exact Or.inl rfl
    · exact Or.inr ((compareKeys_eq_iff a b).mp hc)
    · exact absurd hc h
  · rintro (h | rfl)
    · rw [h]; decide
    · rw [(compareKeys_eq_iff a a).mpr rfl]; decide

theorem keyLT_trans {a b c : List Nat} (h1 : keyLT a b) (h2 : keyLT b c) : keyLT a c :=
  compareKeys_lt_trans h1 h2

theorem keyLE_trans {a b c : List Nat} (h1 : keyLE a b) (h2 : keyLE b c) : keyLE a c := by
  rcases (keyLE_iff a b).mp h1 with h1' | h1'
  · rcases (keyLE_iff b c).mp h2 with h2' | h2'
    · exact (keyLE_iff a c).mpr (Or.inl (keyLT_trans h1' h2'))
    · subst h2'; exact h1
  · subst h1'; exact h2

theorem keyLE_total (a b : List Nat) : keyLE a b ∨ keyLE b a := by
  unfold keyLE
  rcases h : compareKeys a b with _ | _ | _
  · left; decide
  · left; decide
  · right
    rw [compareKeys_swap a b, h]
    decide

theorem keyLT_of_keyLE_of_ne {a b : List Nat} (h : keyLE a b) (hne : a ≠ b) : keyLT a b := by
  rcases (keyLE_iff a b).mp h with h' | h'
  · exact h'
  · exact absurd h' hne

/-! ## Map-entry framing (`mapEntry`, `toBuffer`)

A serialized map entry is `u16 key_length || key_bytes || marshalled_kv`:
`toBuffer` writes `binary.BigEndian.PutUint16(b[0:2], uint16(len(key)))`
followed by the key and the marshalled KV; `mapEntry.Key`/`mapEntry.Data`
read the 2-byte length back to delimit the key. -/

/-- The bytes `toBuffer` emits for a key and a marshalled-KV payload. -/
def mapEntrySer (key data : List Nat) : List Nat := beBytes 2 key.length ++ (key ++ data)

/-- Model of `mapEntry.Key`: the `sz = Uint16(me[0:2])` bytes after the length field. -/
def mapEntryKey (me : List Nat) : List Nat := (me.drop 2).take (beDec (me.take 2))

/-- Model of `mapEntry.Data`: everything after the length field and the key. -/
def mapEntryData (me : List Nat) : List Nat := (me.drop 2).drop (beDec (me.take 2))

theorem beBytes_two (n : Nat) : beBytes 2 n = [n / 256 % 256, n % 256] := by
  simp [beBytes]

theorem beDec_beBytes_two (n : Nat) : beDec (beBytes 2 n) = n % 65536 := by
  have h := beDec_beBytes 2 n
  norm_num at h
  exact h

theorem mapEntrySer_take_two (key data : List Nat) :
    (mapEntrySer key data).take 2 = beBytes 2 key.length := by
  unfold mapEntrySer
  exact List.take_left' (beBytes_length 2 key.length)

theorem mapEntrySer_drop_two (key data : List Nat) :
    (mapEntrySer key data).drop 2 = key ++ data := by
  unfold mapEntrySer
  exact List.drop_left' (beBytes_length 2 key.length)

/-- C10.  The framing stores the key length modulo `2^16`; the accessors
recover the key and payload exactly when the key is shorter than 65536
bytes, and for any longer key the framing no longer delimits it. -/
theorem framing_roundtrip_iff_short_key (key data : List Nat) :
    beDec ((mapEntrySer key data).take 2) = key.length % 65536 ∧
    ((mapEntryKey (mapEntrySer key data) = key ∧
      mapEntryData (mapEntrySer key data) = data) ↔ key.length < 65536) := by
  have hsz : beDec ((mapEntrySer key data).take 2) = key.length % 65536 := by
    rw [mapEntrySer_take_two, beDec_beBytes_two]
  have hkey : mapEntryKey (mapEntrySer key data) = (key ++ data).take (key.length % 65536) := by
    unfold mapEntryKey
    rw [mapEntrySer_drop_two]
    rw [show (mapEntrySer key data).take 2 = beBytes 2 key.length from
      mapEntrySer_take_two key data, beDec_beBytes_two]
  refine ⟨hsz, ?_, ?_⟩
  · rintro ⟨hk, _⟩
    by_contra hlong
    push_neg at hlong
    have hmlt : key.length % 65536 < 65536 := Nat.mod_lt _ (by norm_num)
    have hlen : ((key ++ data).take (key.length % 65536)).length = key.length % 65536 := by
      rw [List.length_take, List.length_append]
      omega
    have hcontra := congrArg List.length hk
    rw [hkey, hlen] at hcontra
    omega
  · intro hshort
    have hmod : key.length % 65536 = key.length := Nat.mod_eq_of_lt hshort
    constructor
    · rw [hkey, hmod, List.take_left' rfl]
    · unfold mapEntryData
      rw [mapEntrySer_drop_two,
        show (mapEntrySer key data).take 2 = beBytes 2 key.length from
          mapEntrySer_take_two key data, beDec_beBytes_two, hmod, List.drop_left' rfl]

/-! ## Sorting and the map-file writer (`writeNow`, `writeToDisk`)

`writeNow` sorts the merge buffer with `SortSlice` comparing
`y.CompareKeys(lme.Key(), rme.Key())` and hands it to `writeToDisk`,
which samples partition keys over the sorted entries and serializes the
entries in iteration order.  A buffer is a list of serialized entries. -/

/-- Non-strict order on serialized entries by their decoded native keys. -/
def entryLE (a b : List Nat) : Prop := keyLE (mapEntryKey a) (mapEntryKey b)

/-- Strict order on serialized entries: the comparator `SortSlice` is
called with (`y.CompareKeys(lme.Key(), rme.Key()) < 0`). -/
def entryLT (a b : List Nat) : Prop := keyLT (mapEntryKey a) (mapEntryKey b)

instance : DecidableRel entryLE := fun a b => by unfold entryLE; infer_instance

instance : DecidableRel entryLT := fun a b => by unfold entryLT; infer_instance

instance : IsTotal (List Nat) entryLE :=
  ⟨fun a b => keyLE_total (mapEntryKey a) (mapEntryKey b)⟩

instance : IsTrans (List Nat) entryLE :=
  ⟨fun _ _ _ h1 h2 => keyLE_trans h1 h2⟩

/-- Modelled from the library interface the source imports:
`z.Buffer.SortSlice` sorts the buffer's slices by the given comparator
(modelled as an insertion sort, which produces a sorted permutation). -/
def sortSlice (buf : List (List Nat)) : List (List Nat) :=
  List.insertionSort entryLE buf

/-- One written map file: the header's partition keys and the body's
entries in the order they are serialized. -/
structure MapFile where
  partitionKeys : List (List Nat)
  entries : List (List Nat)
  deriving DecidableEq, Repr

/-- The partition-key sampling loop of `writeToDisk` (lines 176-193):
accumulate `4 + len(slice)` bytes; once the accumulator reaches
`partitionBufSz`, record the entry's key — unless it equals the last
recorded partition key — and reset the accumulator.  `last` is the most
recently recorded key. -/
def partitionKeysGo (pbs : Nat) : Nat → Option (List Nat) → List (List Nat) → List (List Nat)
  | _, _, [] => []
  | bufSize, last, s :: rest =>
    let bufSize := bufSize + 4 + s.length
    if bufSize < pbs then partitionKeysGo pbs bufSize last rest
    else if last = some (mapEntryKey s) then partitionKeysGo pbs bufSize last rest
    else mapEntryKey s :: partitionKeysGo pbs 0 (some (mapEntryKey s)) rest

/-- Model of `writeToDisk`: nothing is written for an empty buffer; otherwise one
file is produced whose header holds the sampled partition keys and whose
body is the buffer's entries in iteration order (the `u32` header-length
frame, varint entry framing and snappy compression are transport-level
encodings of these fields). -/
def writeToDisk (pbs : Nat) (buf : List (List Nat)) : Option MapFile :=
  if buf = [] then none
  else some { partitionKeys := partitionKeysGo pbs 0 none buf, entries := buf }

/-- Model of `writeNow`: an empty merge buffer is released without writing;
otherwise the buffer is sorted by native key comparison and written. -/
def writeNow (pbs : Nat) (buf : List (List Nat)) : Option MapFile :=
  if buf = [] then none
  else writeToDisk pbs (sortSlice buf)

theorem sortSlice_sorted (buf : List (List Nat)) : List.Sorted entryLE (sortSlice buf) :=
  List.sorted_insertionSort entryLE buf

theorem sortSlice_perm (buf : List (List Nat)) : List.Perm (sortSlice buf) buf :=
  List.perm_insertionSort entryLE buf

theorem partitionKeysGo_sublist (pbs : Nat) :
    ∀ (buf : List (List Nat)) (bufSize : Nat) (last : Option (List Nat)),
      List.Sublist (partitionKeysGo pbs bufSize last buf) (buf.map mapEntryKey)
  | [], _, _ => by simp [partitionKeysGo]
  | s :: rest, bufSize, last => by
    rw [partitionKeysGo]
    simp only [List.map_cons]
    split
    · exact (partitionKeysGo_sublist pbs rest _ last).cons _
    · split
      · exact (partitionKeysGo_sublist pbs rest _ last).cons _
      · exact (partitionKeysGo_sublist pbs rest 0 _).cons₂ _

theorem partitionKeysGo_sorted (pbs : Nat) :
    ∀ (buf : List (List Nat)) (bufSize : Nat) (last : Option (List Nat)),
      List.Sorted keyLE (buf.map mapEntryKey) →
      (∀ k0, last = some k0 → ∀ k ∈ buf.map mapEntryKey, keyLE k0 k) →
      List.Pairwise keyLT (partitionKeysGo pbs bufSize last buf) ∧
      ∀ k ∈ partitionKeysGo pbs bufSize last buf,
        k ∈ buf.map mapEntryKey ∧ ∀ k0, last = some k0 → keyLT k0 k
  | [], _, _, _, _ => by simp [partitionKeysGo]
  | s :: rest, bufSize, last, hsorted, hlast => by
    rw [partitionKeysGo]
    simp only [List.map_cons, List.sorted_cons] at hsorted
    obtain ⟨hhead, htail⟩ := hsorted
    split
    · -- accumulator below the threshold: skip, `last` unchanged
      have hrec := partitionKeysGo_sorted pbs rest (bufSize + 4 + s.length) last htail
        (fun k0 hk0 k hk => hlast k0 hk0 k (List.mem_cons_of_mem _ hk))
      exact ⟨hrec.1, fun k hk =>
        ⟨List.mem_cons_of_mem _ (hrec.2 k hk).1, (hrec.2 k hk).2⟩⟩
    · split
      · -- the key repeats the last partition key: skip
        next heq =>
        have hrec := partitionKeysGo_sorted pbs rest (bufSize + 4 + s.length) last htail
          (fun k0 hk0 k hk => hlast k0 hk0 k (List.mem_cons_of_mem _ hk))
        exact ⟨hrec.1, fun k hk =>
          ⟨List.mem_cons_of_mem _ (hrec.2 k hk).1, (hrec.2 k hk).2⟩⟩
      · -- record a new partition key
        next hne =>
        have hrec := partitionKeysGo_sorted pbs rest 0 (some (mapEntryKey s)) htail
          (by rintro k0 ⟨rfl⟩ k hk; exact hhead k hk)
        refine ⟨List.pairwise_cons.mpr ⟨fun k hk => ?_, hrec.1⟩, ?_⟩
        · exact ((hrec.2 k hk).2 _ rfl)
        · intro k hk
          rcases List.mem_cons.mp hk with rfl | hk'
          · refine ⟨List.mem_cons_self _ _, ?_⟩
            intro k0 hk0
            subst hk0
            exact keyLT_of_keyLE_of_ne (hlast k0 rfl _ (List.mem_cons_self _ _))
              (fun hc => hne (by rw [hc]))
          · refine ⟨List.mem_cons_of_mem _ (hrec.2 k hk').1, ?_⟩
            intro k0 hk0
            subst hk0
            have hlt1 : keyLT k0 (mapEntryKey s) :=
              keyLT_of_keyLE_of_ne (hlast k0 rfl _ (List.mem_cons_self _ _))
                (fun hc => hne (by rw [hc]))
            exact keyLT_trans hlt1 ((hrec.2 k hk').2 _ rfl)

/-! ## The record processor's data model

Input records are badger `KV`s (`bpb.KV`): key bytes, value bytes, a
user-meta byte string, a version and a stream id.  The backup key is a
serialized `pb.BackupKey` carrying a namespace, a key kind, an attribute,
a uid and a start-uid flag; `x.FromBackupKey` renders it as a native key
and `x.Parse` parses a native key back.  The protobuf wire formats are
not in the repository's sources, so each codec below is an executable
injective stand-in with explicit failure on malformed bytes. -/

inductive KeyKind
  | dataKey
  | schemaKey
  | typeKey
  | countKey
  deriving DecidableEq, Repr

structure BackupKey where
  ns : Nat
  kind : KeyKind
  attr : List Nat
  uid : Nat
  hasStartUid : Bool
  deriving DecidableEq, Repr

structure ParsedKey where
  kind : KeyKind
  attr : List Nat
  uid : Nat
  hasStartUid : Bool
  deriving DecidableEq, Repr

def ParsedKey.isSchema (pk : ParsedKey) : Bool := pk.kind = KeyKind.schemaKey

def ParsedKey.isType (pk : ParsedKey) : Bool := pk.kind = KeyKind.typeKey

def kindTag : KeyKind → Nat
  | .dataKey => 0
  | .schemaKey => 1
  | .typeKey => 2
  | .countKey => 3

def kindOfTag : Nat → Option KeyKind
  | 0 => some .dataKey
  | 1 => some .schemaKey
  | 2 => some .typeKey
  | 3 => some .countKey
  | _ => none

/-- Modelled from the spec: `x.FromBackupKey` builds the native badger key
from a decoded backup key — a kind tag, the start-uid flag, the uid and
the attribute bytes (an injective rendering). -/
def nativeKeyEncode (bk : BackupKey) : List Nat :=
  kindTag bk.kind :: (if bk.hasStartUid then 1 else 0) :: (beBytes 8 bk.uid ++ bk.attr)

/-- Modelled from the spec: `x.Parse` decodes a native key into a parsed
key `{kind, attr, uid, hasStartUid}`, failing on malformed bytes. -/
def xParse (k : List Nat) : Except Unit ParsedKey :=
  match k with
  | t :: f :: rest =>
    match kindOfTag t with
    | some kd =>
      if f ≤ 1 ∧ 8 ≤ rest.length then
        .ok { kind := kd, attr := rest.drop 8, uid := beDec (rest.take 8),
              hasStartUid := decide (f = 1) }
      else .error ()
    | none => .error ()
  | _ => .error ()

/-- Modelled from the spec: the serialized `pb.BackupKey` — a magic byte,
the 8 namespace bytes, then the native-key rendering of the rest. -/
def backupKeyMarshal (bk : BackupKey) : List Nat :=
  66 :: (beBytes 8 bk.ns ++ nativeKeyEncode bk)

/-- Modelled from the spec: `pb.BackupKey.Unmarshal`, the partial inverse
of `backupKeyMarshal`; malformed bytes are a decoding error. -/
def backupKeyUnmarshal (k : List Nat) : Except Unit BackupKey :=
  match k with
  | 66 :: rest =>
    if 8 ≤ rest.length then
      match xParse (rest.drop 8) with
      | .ok pk =>
        .ok { ns := beDec (rest.take 8), kind := pk.kind, attr := pk.attr,
              uid := pk.uid, hasStartUid := pk.hasStartUid }
      | .error e => .error e
    else .error ()
  | _ => .error ()

/-- Model of `fromBackupKey` (lines 258-264): unmarshal the backup key, return the
native restore key and the namespace. -/
def fromBackupKey (key : List Nat) : Except Unit (List Nat × Nat) :=
  match backupKeyUnmarshal key with
  | .ok bk => .ok (nativeKeyEncode bk, bk.ns)
  | .error e => .error e

/-- Model of `bpb.KV`: one backup record. -/
structure KV where
  key : List Nat
  value : List Nat
  userMeta : List Nat
  version : Nat
  streamId : Nat
  deriving DecidableEq, Repr

/-- Modelled from the library interface the source imports: the posting
user-meta bits (`posting.BitSchemaPosting` and friends). -/
def bitSchemaPosting : Nat := 1

def bitDeltaPosting : Nat := 4

def bitCompletePosting : Nat := 8

def bitEmptyPosting : Nat := 16

/-- Model of `loadBackupInput` (lines 110-115): the per-archive load descriptor. -/
structure LoadBackupInput where
  preds : List (List Nat)
  dropNs : List Nat
  version : Nat
  keepSchema : Bool
  deriving DecidableEq, Repr

/-- Modelled from the spec: a posting-list value, with its split list and
a size used by the rollup-eligibility threshold. -/
structure PostingList where
  size : Nat
  splits : List Nat
  deriving DecidableEq, Repr

/-- Modelled from the spec: the size threshold above which a complete
list is a candidate for rollup (`posting.ShouldSplit`). -/
def maxListSize : Nat := 1000000

def shouldSplit (pl : PostingList) : Bool := decide (maxListSize ≤ pl.size)

/-- Modelled from the spec: the serialized posting-list value. -/
def postingListMarshal (pl : PostingList) : List Nat :=
  80 :: pl.size :: pl.splits.length :: pl.splits

/-- Modelled from the spec: `pb.BackupPostingList.Unmarshal` composed with
`posting.FromBackupPostingList` — decode the value into a posting list,
failing on malformed bytes. -/
def backupPostingListUnmarshal (v : List Nat) : Except Unit PostingList :=
  match v with
  | 80 :: sz :: n :: rest =>
    if rest.length = n then .ok { size := sz, splits := rest } else .error ()
  | _ => .error ()

/-- Modelled from the library interface the source imports:
`posting.MarshalPostingList` renders a list as a KV with a
complete-posting meta byte (key and version are set by the caller). -/
def marshalPostingList (pl : PostingList) : KV :=
  { key := [], value := postingListMarshal pl, userMeta := [bitCompletePosting],
    version := 0, streamId := 0 }

/-- Modelled from the spec: `posting.NewList(..).Rollup` produces one
primary record and zero or more split records, each carrying the list's
read timestamp (the source record's version) as its version. -/
def rollup (key : List Nat) (pl : PostingList) (readTs : Nat) : Except Unit (List KV) :=
  .ok ({ key := key, value := postingListMarshal { size := pl.size, splits := [] },
         userMeta := [bitCompletePosting], version := readTs, streamId := 0 }
    :: (List.range (pl.size / (2 * maxListSize))).map (fun i =>
        { key := key ++ beBytes 8 (i + 1),
          value := postingListMarshal { size := maxListSize, splits := [] },
          userMeta := [bitCompletePosting], version := readTs, streamId := 0 }))

/-- Model of `pb.TypeUpdate`, reduced to the fields the migrations touch: the type
name and each field's predicate. -/
structure TypeUpdate where
  typeName : List Nat
  fields : List (List Nat)
  deriving DecidableEq, Repr

/-- Model of `pb.SchemaUpdate`, reduced to the predicate the migrations touch. -/
structure SchemaUpdate where
  predicate : List Nat
  deriving DecidableEq, Repr

/-- Modelled from the spec: the serialized `pb.SchemaUpdate`. -/
def schemaUpdateMarshal (u : SchemaUpdate) : List Nat :=
  83 :: u.predicate.length :: u.predicate

/-- Modelled from the spec: `pb.SchemaUpdate.Unmarshal`, failing on
malformed bytes. -/
def schemaUpdateUnmarshal (v : List Nat) : Except Unit SchemaUpdate :=
  match v with
  | 83 :: n :: rest =>
    if rest.length = n then .ok { predicate := rest } else .error ()
  | _ => .error ()

/-- Length-prefixed chunk list decoding used by the type-update codec. -/
def decChunks : Nat → List Nat → Option (List (List Nat))
  | 0, [] => some []
  | 0, _ :: _ => none
  | _ + 1, [] => none
  | n + 1, k :: rest =>
    if k ≤ rest.length then
      match decChunks n (rest.drop k) with
      | some fs => some (rest.take k :: fs)
      | none => none
    else none

/-- Modelled from the spec: the serialized `pb.TypeUpdate`. -/
def typeUpdateMarshal (u : TypeUpdate) : List Nat :=
  84 :: u.typeName.length :: (u.typeName ++ u.fields.length ::
    u.fields.flatMap (fun f => f.length :: f))

/-- Modelled from the spec: `pb.TypeUpdate.Unmarshal`, failing on
malformed bytes. -/
def typeUpdateUnmarshal (v : List Nat) : Except Unit TypeUpdate :=
  match v with
  | 84 :: n :: rest =>
    if n ≤ rest.length then
      match rest.drop n with
      | m :: rest2 =>
        match decChunks m rest2 with
        | some fs => .ok { typeName := rest.take n, fields := fs }
        | none => .error ()
      | [] => .error ()
    else .error ()
  | _ => .error ()

/-- Modelled from the spec: `x.GalaxyAttr` prepends the default (galaxy)
namespace tag to an attribute. -/
def galaxyAttr (a : List Nat) : List Nat := beBytes 8 0 ++ a

def hexDigitByte (n : Nat) : Nat := if n < 10 then 48 + n else 87 + n

def byteHex (b : Nat) : List Nat := [hexDigitByte (b / 16 % 16), hexDigitByte (b % 16)]

/-- Modelled from the spec: `x.AttrFrom2103` rewrites an attribute from
the 2103 format `<ns bytes>|<attr>` (8 namespace bytes, a `|`, the
attribute) to `<ns hex>-<attr>`; any other shape is an error. -/
def attrFrom2103 (a : List Nat) : Except Unit (List Nat) :=
  match a.drop 8 with
  | 124 :: attr => .ok ((a.take 8).flatMap byteHex ++ 45 :: attr)
  | _ => .error ()

/-- Model of `changeFormat` (lines 411-444): rewrite the 2103 attribute format in
a schema-update or type-update value; any other key kind is untouched. -/
def changeFormat (pk : ParsedKey) (kv : KV) : Except Unit KV :=
  if pk.isSchema then
    match schemaUpdateUnmarshal kv.value with
    | .ok u =>
      match attrFrom2103 u.predicate with
      | .ok p => .ok { kv with value := schemaUpdateMarshal { predicate := p } }
      | .error e => .error e
    | .error e => .error e
  else if pk.isType then
    match typeUpdateUnmarshal kv.value with
    | .ok u =>
      match attrFrom2103 u.typeName, u.fields.mapM attrFrom2103 with
      | .ok tn, .ok fs =>
        .ok { kv with value := typeUpdateMarshal { typeName := tn, fields := fs } }
      | .error e, _ => .error e
      | _, .error e => .error e
    | .error e => .error e
  else .ok kv

/-- Model of `appendNamespace` (lines 397-410): prepend the galaxy namespace tag
to a type update's name and to each field's predicate. -/
def appendNamespaceUpd (u : TypeUpdate) : TypeUpdate :=
  { typeName := galaxyAttr u.typeName, fields := u.fields.map galaxyAttr }

/-- The processor's thread-local maxima (`processor.maxUid/maxNs`). -/
structure PState where
  maxUid : Nat
  maxNs : Nat
  deriving DecidableEq, Repr

/-- A map entry as accumulated in the spill buffer: the timestamped key
and the KV whose marshalling is stored after it (`mapEntrySer ent.key
(kvMarshal ent.kv)` is its byte rendering). -/
structure MapEnt where
  key : List Nat
  kv : KV
  deriving DecidableEq, Repr

/-- Modelled from the spec: badger's `y.KeyWithTs` appends the timestamp
as a big-endian 64-bit value to the key. -/
def keyWithTs (key : List Nat) (ts : Nat) : List Nat := key ++ beBytes 8 ts

/-- Model of `toBuffer` (lines 309-318): frame the KV under the key with the given
version appended as the timestamp suffix. -/
def toBuffer (kv : KV) (version : Nat) : MapEnt :=
  { key := keyWithTs kv.key version, kv := kv }

/-- Model of `processKV` (lines 308-479): filter, transform and emit one record.
Returns the updated thread-local maxima and the entries appended to the
spill buffer; `Except.error` is a fatal per-batch decoding error, while
a skipped record is `.ok` with no entries. -/
def processKV (restoreTs : Nat) (st : PState) (inp : LoadBackupInput) (kv : KV) :
    Except Unit (PState × List MapEnt) :=
  match kv.userMeta with
  | [meta] =>
    match fromBackupKey kv.key with
    | .error e => .error e
    | .ok (restoreKey, ns) =>
      match xParse restoreKey with
      | .error e => .error e
      | .ok parsedKey =>
        let st1 : PState := { maxUid := max st.maxUid parsedKey.uid,
                              maxNs := max st.maxNs ns }
        if !inp.keepSchema && (parsedKey.isSchema || parsedKey.isType) then
          .ok (st1, [])
        else if !parsedKey.isType && !(decide (parsedKey.attr ∈ inp.preds)) then
          .ok (st1, [])
        else if meta = bitEmptyPosting ∨ meta = bitCompletePosting ∨ meta = bitDeltaPosting then
          if decide (ns ∈ inp.dropNs) then .ok (st1, [])
          else
            match backupPostingListUnmarshal kv.value with
            | .error e => .error e
            | .ok pl =>
              if !shouldSplit pl || parsedKey.hasStartUid || decide (0 < pl.splits.length) then
                let newKv : KV :=
                  { marshalPostingList pl with key := restoreKey, version := restoreTs }
                .ok (st1, [toBuffer newKv kv.version])
              else
                match rollup restoreKey pl kv.version with
                | .error e => .error e
                | .ok kvs =>
                  .ok (st1, kvs.map (fun kv2 =>
                    toBuffer { kv2 with version := restoreTs } kv2.version))
        else if meta = bitSchemaPosting then
          let migrated : Except Unit KV :=
            if inp.version = 0 then
              if parsedKey.isType then
                match typeUpdateUnmarshal kv.value with
                | .ok u => .ok { kv with value := typeUpdateMarshal (appendNamespaceUpd u) }
                | .error e => .error e
              else .ok kv
            else if inp.version = 2103 then changeFormat parsedKey kv
            else .ok kv
          match migrated with
          | .error _ => .ok (st1, [])
          | .ok kv1 =>
            let kv2 : KV :=
              { kv1 with streamId := 0, version := restoreTs, key := restoreKey }
            .ok (st1, [toBuffer kv2 kv.version])
        else .error ()
  | _ => .error ()

/-! ## The manifest planner (`RunMapper`)

The planner walks manifests newest to oldest, evolving the drop set,
building one load descriptor per processed archive and feeding the
archive's records through the processor.  The concurrent pipeline is
modelled by the sequential fold it computes; the trace of handed
descriptors (with their manifest index and records) is kept so the
invariants about them can be stated. -/

inductive DropOpKind
  | all
  | data
  | attr
  | ns
  deriving DecidableEq, Repr

/-- One `pb.DropOperation`: the kind and the `DropValue` byte string
(empty for the old drop-data format). -/
structure DropOperation where
  dropOp : DropOpKind
  dropValue : List Nat
  deriving DecidableEq, Repr

/-- Modelled from the spec: `strconv.ParseUint` on a decimal byte string;
empty or non-digit input is an error. -/
def parseUint (l : List Nat) : Except Unit Nat :=
  if l ≠ [] ∧ ∀ b ∈ l, 48 ≤ b ∧ b ≤ 57 then
    .ok (l.foldl (fun acc b => acc * 10 + (b - 48)) 0)
  else .error ()

/-- One manifest of the chain, with the records of its archive file per
group (the archive stream, decode and decompression being external). -/
structure Manifest where
  backupNum : Nat
  validReadTs : Nat
  groups : List Nat
  predsInGroup : Nat → List (List Nat)
  compression : String
  version : Nat
  dropOperations : List DropOperation
  archive : Nat → List KV

/-- Model of `pb.RestoreRequest`, reduced to the fields the planner reads
(`uriOk` abstracts `url.Parse`/`NewUriHandler` succeeding). -/
structure RestoreRequest where
  restoreTs : Nat
  groupId : Nat
  incrementalFrom : Nat
  uriOk : Bool

/-- The planner's evolving state: the drop set, the processor maxima and
the trace of (manifest index, load descriptor, archive records) handed
to `mapper.Map`. -/
structure LoopState where
  dropAll : Bool
  dropAttr : List (List Nat)
  dropNs : List Nat
  maxBannedNs : Nat
  pstate : PState
  handed : List (Nat × LoadBackupInput × List KV)

/-- Model of `mapResult` (lines 612-624), reduced to the fields the claims read. -/
structure MapResult where
  maxUid : Nat
  maxNs : Nat
  shouldDropAll : Bool
  dropAttr : List (List Nat)
  dropNs : List Nat

/-- Fold `processKV` over one archive's records (the batch framing of
`mapper.Map` and `processReqCh` preserved this order). -/
def processList (restoreTs : Nat) (inp : LoadBackupInput) :
    PState → List KV → Except Unit (PState × List MapEnt)
  | st, [] => .ok (st, [])
  | st, kv :: rest =>
    match processKV restoreTs st inp kv with
    | .error e => .error e
    | .ok (st1, es) =>
      match processList restoreTs inp st1 rest with
      | .error e => .error e
      | .ok (st2, es2) => .ok (st2, es ++ es2)

/-- The group loop of `RunMapper` (lines 725-768): for the group matching
the request, build the load descriptor from the newest manifest's
predicates minus the dropped ones, snapshot `dropNs`, set `keepSchema`
for the newest manifest, and process the archive. -/
def processGroups (restoreTs gid : Nat) (preds0 : Nat → List (List Nat))
    (m : Manifest) (i : Nat) : LoopState → List Nat → Except Unit LoopState
  | ls, [] => .ok ls
  | ls, g :: gs =>
    if g ≠ gid then processGroups restoreTs gid preds0 m i ls gs
    else
      match processList restoreTs
          { preds := (preds0 gid).filter (fun p => !(decide (p ∈ ls.dropAttr))),
            dropNs := ls.dropNs, version := m.version, keepSchema := decide (i = 0) }
          ls.pstate (m.archive gid) with
      | .error e => .error e
      | .ok (st1, _) =>
        processGroups restoreTs gid preds0 m i
          { ls with
            pstate := st1,
            handed := ls.handed ++ [(i,
              { preds := (preds0 gid).filter (fun p => !(decide (p ∈ ls.dropAttr))),
                dropNs := ls.dropNs, version := m.version, keepSchema := decide (i = 0) },
              m.archive gid)] } gs

/-- The drop-operation fold of `RunMapper` (lines 769-797).  `DROP_NS`
calls the external `pstore.BanNamespace` (a side effect on the live
store) and records the namespace in `maxBannedNs`. -/
def applyDropOps : LoopState → List DropOperation → Except Unit LoopState
  | ls, [] => .ok ls
  | ls, op :: ops =>
    match op.dropOp with
    | .all => applyDropOps { ls with dropAll := true } ops
    | .data =>
      if op.dropValue = [] then applyDropOps { ls with dropAll := true } ops
      else
        match parseUint op.dropValue with
        | .error e => .error e
        | .ok n => applyDropOps { ls with dropNs := ls.dropNs ++ [n] } ops
    | .attr => applyDropOps { ls with dropAttr := ls.dropAttr ++ [op.dropValue] } ops
    | .ns =>
      match parseUint op.dropValue with
      | .error e => .error e
      | .ok n => applyDropOps { ls with maxBannedNs := max ls.maxBannedNs n } ops

/-- The manifest walk of `RunMapper` (lines 711-799): stop at a manifest
older than `IncrementalFrom` or once drop-all is set; skip manifests with
no valid read timestamp or no groups; otherwise process the group and
fold the manifest's drop operations. -/
def runManifests (restoreTs gid incrFrom : Nat) (preds0 : Nat → List (List Nat)) :
    List Manifest → Nat → LoopState → Except Unit LoopState
  | [], _, ls => .ok ls
  | m :: rest, i, ls =>
    if m.backupNum < incrFrom then .ok ls
    else if ls.dropAll then .ok ls
    else if m.validReadTs = 0 ∨ m.groups = [] then
      runManifests restoreTs gid incrFrom preds0 rest (i + 1) ls
    else
      match processGroups restoreTs gid preds0 m i ls m.groups with
      | .error e => .error e
      | .ok ls1 =>
        match applyDropOps ls1 m.dropOperations with
        | .error e => .error e
        | .ok ls2 => runManifests restoreTs gid incrFrom preds0 rest (i + 1) ls2

def initLoopState : LoopState :=
  { dropAll := false, dropAttr := [], dropNs := [], maxBannedNs := 0,
    pstate := { maxUid := 0, maxNs := 0 }, handed := [] }

/-- Model of `RunMapper` (lines 628-821): reject a bad URI or a zero restore
timestamp, walk the manifests, and return the map result — `maxNs` is
raised to `maxBannedNs` at the end (line 819).  The final `LoopState` is
returned alongside as the specification-level trace of the run. -/
def RunMapper (req : RestoreRequest) (manifests : List Manifest) :
    Except Unit (MapResult × LoopState) :=
  if !req.uriOk then .error ()
  else if req.restoreTs = 0 then .error ()
  else
    match
      (match manifests with
       | [] => Except.ok initLoopState
       | m0 :: _ =>
         runManifests req.restoreTs req.groupId req.incrementalFrom m0.predsInGroup
           manifests 0 initLoopState)
    with
    | .error e => .error e
    | .ok fin =>
      .ok ({ maxUid := fin.pstate.maxUid,
             maxNs := max fin.pstate.maxNs fin.maxBannedNs,
             shouldDropAll := fin.dropAll, dropAttr := fin.dropAttr,
             dropNs := fin.dropNs }, fin)

/-! ## The backup reader (`backupReader`)

Only the error latch and the compression dispatch are modelled: the
transport stream and cipher are external.  `gzipHeaderOk` abstracts
whether `gzip.NewReader` accepts the underlying stream's header. -/

structure BackupReader where
  err : Option String
  gzipHeaderOk : Bool
  deriving DecidableEq, Repr

/-- Model of `backupReader.setErr` (lines 81-85): latch the first error. -/
def setErr (br : BackupReader) (e : Option String) : BackupReader :=
  if br.err = none then { br with err := e } else br

/-- Model of `WithCompression` (lines 95-108): snappy wraps without error; gzip
(and the empty string, which means gzip) construct a gzip reader whose
header read may fail; anything else records an unknown-compression
error. -/
def withCompression (br : BackupReader) (comp : String) : BackupReader :=
  if comp = "snappy" then br
  else if comp = "gzip" ∨ comp = "" then
    setErr br (if br.gzipHeaderOk then none else some "gzip: invalid header")
  else setErr br (some ("Unknown compression for backup: " ++ comp))

/-! ## Inversion lemmas about `processKV` -/

def isError {α : Type} : Except Unit α → Bool
  | .error _ => true
  | .ok _ => false

theorem rollup_version (key : List Nat) (pl : PostingList) (readTs : Nat) (kvs : List KV)
    (h : rollup key pl readTs = .ok kvs) : ∀ x ∈ kvs, x.version = readTs := by
  unfold rollup at h
  injection h with h
  subst h
  intro x hx
  rcases List.mem_cons.mp hx with rfl | hx'
  · rfl
  · obtain ⟨i, _, rfl⟩ := List.mem_map.mp hx'
    rfl

theorem drop_append_suffix (k b : List Nat) (hb : b.length = 8) :
    (k ++ b).drop ((k ++ b).length - 8) = b := by
  rw [List.length_append, hb, show k.length + 8 - 8 = k.length from by omega,
    List.drop_left]

/-- Inversion of a successful `processKV`: the key decoded, the maxima
updated from it, and every emitted entry carrying `restoreTs` as its
record version and the source version as its key suffix. -/
theorem processKV_ok_inv (restoreTs : Nat) (st : PState) (inp : LoadBackupInput)
    (kv : KV) (st1 : PState) (es : List MapEnt)
    (h : processKV restoreTs st inp kv = .ok (st1, es)) :
    ∃ rk ns pk, fromBackupKey kv.key = .ok (rk, ns) ∧ xParse rk = .ok pk ∧
      st1 = { maxUid := max st.maxUid pk.uid, maxNs := max st.maxNs ns } ∧
      ∀ e ∈ es, e.kv.version = restoreTs ∧ e.key = e.kv.key ++ beBytes 8 kv.version := by
  rcases hum : kv.userMeta with _ | ⟨meta, rest⟩
  · simp only [processKV, hum] at h
    exact Except.noConfusion h
  rcases rest with _ | ⟨m2, rest2⟩
  case cons.cons =>
    simp only [processKV, hum] at h
    exact Except.noConfusion h
  rcases hfb : fromBackupKey kv.key with e | ⟨rk, ns⟩
  · simp only [processKV, hum, hfb] at h
    exact Except.noConfusion h
  rcases hp : xParse rk with e | pk
  · simp only [processKV, hum, hfb, hp] at h
    exact Except.noConfusion h
  refine ⟨rk, ns, pk, rfl, hp, ?_⟩
  simp only [processKV, hum, hfb, hp] at h
  by_cases h1 : (!inp.keepSchema && (pk.isSchema || pk.isType)) = true
  · rw [if_pos h1] at h
    simp only [Except.ok.injEq, Prod.mk.injEq] at h
    obtain ⟨hst, hes⟩ := h
    subst hes
    exact ⟨hst.symm, by simp⟩
  rw [if_neg h1] at h
  by_cases h2 : (!pk.isType && !decide (pk.attr ∈ inp.preds)) = true
  · rw [if_pos h2] at h
    simp only [Except.ok.injEq, Prod.mk.injEq] at h
    obtain ⟨hst, hes⟩ := h
    subst hes
    exact ⟨hst.symm, by simp⟩
  rw [if_neg h2] at h
  by_cases h3 : meta = bitEmptyPosting ∨ meta = bitCompletePosting ∨ meta = bitDeltaPosting
  · rw [if_pos h3] at h
    by_cases h4 : decide (ns ∈ inp.dropNs) = true
    · rw [if_pos h4] at h
      simp only [Except.ok.injEq, Prod.mk.injEq] at h
      obtain ⟨hst, hes⟩ := h
      subst hes
      exact ⟨hst.symm, by simp⟩
    rw [if_neg h4] at h
    rcases hpl : backupPostingListUnmarshal kv.value with e | pl
    · simp only [hpl] at h
      exact Except.noConfusion h
    simp only [hpl] at h
    by_cases h5 : (!shouldSplit pl || pk.hasStartUid || decide (0 < pl.splits.length)) = true
    · rw [if_pos h5] at h
      simp only [Except.ok.injEq, Prod.mk.injEq] at h
      obtain ⟨hst, hes⟩ := h
      subst hes
      refine ⟨hst.symm, ?_⟩
      intro e he
      rcases List.mem_singleton.mp he with rfl
      exact ⟨rfl, rfl⟩
    rw [if_neg h5] at h
    rcases hro : rollup rk pl kv.version with e | kvs
    · simp only [hro] at h
      exact Except.noConfusion h
    simp only [hro, Except.ok.injEq, Prod.mk.injEq] at h
    obtain ⟨hst, hes⟩ := h
    subst hes
    refine ⟨hst.symm, ?_⟩
    intro e he
    obtain ⟨kv2, hkv2, rfl⟩ := List.mem_map.mp he
    have hv := rollup_version _ _ _ _ hro kv2 hkv2
    refine ⟨rfl, ?_⟩
    simp [toBuffer, keyWithTs, hv]
  rw [if_neg h3] at h
  by_cases h6 : meta = bitSchemaPosting
  · rw [if_pos h6] at h
    repeat' split at h
    all_goals first
      | exact Except.noConfusion h
      | (simp only [Except.ok.injEq, Prod.mk.injEq] at h
         obtain ⟨hst, hes⟩ := h
         subst hes
         refine ⟨hst.symm, ?_⟩
         intro e he
         first
           | exact absurd he (List.not_mem_nil e)
           | (rcases List.mem_singleton.mp he with rfl
              exact ⟨rfl, rfl⟩))
  · rw [if_neg h6] at h
    exact Except.noConfusion h

/-! ## C1, C3: sortedness of written files and their partition keys -/

/-- C1 (amended).  Every file `writeNow` writes has its body entries in
ascending (non-decreasing) order under native key comparison — `writeNow`
sorts the buffer by comparing the keys decoded from each entry's header
before `writeToDisk` serializes the entries in iteration order — and the
order is strictly ascending whenever no two buffer entries decode to the
same key.  (With duplicate keys the order is not strict; see the
counterexample.) -/
theorem writeNow_entries_sorted (pbs : Nat) (buf : List (List Nat)) (f : MapFile)
    (h : writeNow pbs buf = some f) :
    List.Sorted entryLE f.entries ∧
      ((buf.map mapEntryKey).Nodup → List.Sorted entryLT f.entries) := by
  unfold writeNow writeToDisk at h
  split at h
  · exact Option.noConfusion h
  split at h
  · exact Option.noConfusion h
  injection h with h'
  subst h'
  refine ⟨sortSlice_sorted buf, ?_⟩
  intro hnd
  have hperm : List.Perm (List.map mapEntryKey (sortSlice buf)) (List.map mapEntryKey buf) :=
    (sortSlice_perm buf).map _
  have hnd2 : (List.map mapEntryKey (sortSlice buf)).Nodup := hperm.nodup_iff.mpr hnd
  have hne : List.Pairwise (fun a b => mapEntryKey a ≠ mapEntryKey b) (sortSlice buf) :=
    List.pairwise_map.mp hnd2
  have hs : List.Pairwise entryLE (sortSlice buf) := sortSlice_sorted buf
  exact (hs.and hne).imp (fun hab => keyLT_of_keyLE_of_ne hab.1 hab.2)

def c1wit1 : List Nat := mapEntrySer [3, 0, 0, 0, 0, 0, 0, 0, 1] [5]

def c1wit2 : List Nat := mapEntrySer [9, 0, 0, 0, 0, 0, 0, 0, 2] [7]

def c1wBuf : List (List Nat) := [c1wit2, c1wit1]

def c1wFile : MapFile := (writeNow 100 c1wBuf).getD ⟨[], []⟩

theorem writeNow_entries_sorted_witness :
    List.Sorted entryLE c1wFile.entries ∧ List.Sorted entryLT c1wFile.entries :=
  ⟨(writeNow_entries_sorted 100 c1wBuf c1wFile (by decide)).1,
   (writeNow_entries_sorted 100 c1wBuf c1wFile (by decide)).2 (by decide)⟩

def c1dup : List Nat := mapEntrySer [5, 0, 0, 0, 0, 0, 0, 0, 1] [7]

/-- C1 counterexample: a buffer holding the same serialized entry twice is
written with two equal consecutive keys, so the file body is sorted but
not strictly ascending under native key comparison. -/
theorem writeNow_not_strictly_ascending :
    writeNow 100 [c1dup, c1dup] = some ⟨[], [c1dup, c1dup]⟩ ∧
      ¬ List.Sorted entryLT [c1dup, c1dup] := by
  constructor
  · decide
  · decide

/-- C3.  For every written map file the header's partition keys are a
subsequence of the (sorted) body entries' keys, are strictly ascending —
hence sorted with no two consecutive equal keys — and are exactly the
result of the sampling loop: a key is recorded whenever the bytes
accumulated since the last sample reach the partition buffer size, except
when it equals the previously recorded partition key. -/
theorem writeToDisk_partition_keys (pbs : Nat) (buf : List (List Nat)) (f : MapFile)
    (h : writeNow pbs buf = some f) :
    List.Sublist f.partitionKeys (f.entries.map mapEntryKey) ∧
      List.Pairwise keyLT f.partitionKeys ∧
      f.partitionKeys = partitionKeysGo pbs 0 none f.entries := by
  unfold writeNow writeToDisk at h
  split at h
  · exact Option.noConfusion h
  split at h
  · exact Option.noConfusion h
  injection h with h'
  subst h'
  refine ⟨partitionKeysGo_sublist pbs (sortSlice buf) 0 none, ?_, rfl⟩
  have hs : List.Sorted keyLE ((sortSlice buf).map mapEntryKey) :=
    List.pairwise_map.mpr (sortSlice_sorted buf)
  exact (partitionKeysGo_sorted pbs (sortSlice buf) 0 none hs
    (fun k0 hk0 => Option.noConfusion hk0)).1

def c3e1 : List Nat := mapEntrySer [1, 0, 0, 0, 0, 0, 0, 0, 0] []

def c3e2 : List Nat := mapEntrySer [2, 0, 0, 0, 0, 0, 0, 0, 0] []

def c3wFile : MapFile := (writeNow 1 [c3e1, c3e2]).getD ⟨[], []⟩

theorem writeToDisk_partition_keys_witness :
    List.Sublist c3wFile.partitionKeys (c3wFile.entries.map mapEntryKey) ∧
      List.Pairwise keyLT c3wFile.partitionKeys ∧
      c3wFile.partitionKeys = partitionKeysGo 1 0 none c3wFile.entries :=
  writeToDisk_partition_keys 1 [c3e1, c3e2] c3wFile (by decide)

/-! ## C2: output versions and key-embedded timestamps -/

/-- C2.  For every entry emitted by `processKV` — posting passthrough,
each rollup output record, and schema records alike — the KV stored in
the entry has its version equal to the caller-supplied `restoreTs`, and
the 8-byte big-endian timestamp suffix appended to the entry's key equals
the source record's version. -/
theorem processKV_output_versions (restoreTs : Nat) (st : PState)
    (inp : LoadBackupInput) (kv : KV) (st1 : PState) (es : List MapEnt)
    (h : processKV restoreTs st inp kv = .ok (st1, es)) :
    ∀ e ∈ es, e.kv.version = restoreTs ∧
      e.key = e.kv.key ++ beBytes 8 kv.version ∧
      e.key.drop (e.key.length - 8) = beBytes 8 kv.version := by
  obtain ⟨rk, ns, pk, _, _, _, hall⟩ := processKV_ok_inv restoreTs st inp kv st1 es h
  intro e he
  obtain ⟨h1, h2⟩ := hall e he
  refine ⟨h1, h2, ?_⟩
  rw [h2]
  exact drop_append_suffix _ _ (beBytes_length 8 kv.version)

def c2bk : BackupKey :=
  { ns := 1, kind := .dataKey, attr := [97], uid := 7, hasStartUid := false }

def c2kv : KV :=
  { key := backupKeyMarshal c2bk, value := postingListMarshal { size := 3, splits := [] },
    userMeta := [bitCompletePosting], version := 50, streamId := 0 }

def c2inp : LoadBackupInput :=
  { preds := [[97]], dropNs := [], version := 2105, keepSchema := true }

def c2out : PState × List MapEnt :=
  (processKV 100 ⟨0, 0⟩ c2inp c2kv).toOption.getD (⟨0, 0⟩, [])

def c2ent : MapEnt := c2out.2.headD ⟨[], ⟨[], [], [], 0, 0⟩⟩

theorem processKV_output_versions_witness :
    c2ent.kv.version = 100 ∧ c2ent.key = c2ent.kv.key ++ beBytes 8 50 ∧
      c2ent.key.drop (c2ent.key.length - 8) = beBytes 8 50 :=
  processKV_output_versions 100 ⟨0, 0⟩ c2inp c2kv c2out.1 c2out.2 rfl c2ent
    (by decide)

/-! ## C6, C7: schema-record migrations -/

theorem isSchema_false_of_isType {pk : ParsedKey} (h : pk.isType = true) :
    pk.isSchema = false := by
  unfold ParsedKey.isType at h
  unfold ParsedKey.isSchema
  cases hk : pk.kind <;> simp_all [hk]

/-- Evaluation of `processKV` on a schema record that passes the filters:
the version-selected migration decides whether the record is skipped
(migration error) or written with stream id reset to zero, version
`restoreTs` and the restore key, the source version in the suffix. -/
theorem processKV_schema_branch (restoreTs : Nat) (st : PState) (inp : LoadBackupInput)
    (kv : KV) (rk : List Nat) (ns : Nat) (pk : ParsedKey)
    (hfb : fromBackupKey kv.key = .ok (rk, ns)) (hp : xParse rk = .ok pk)
    (hm : kv.userMeta = [bitSchemaPosting]) (hks : inp.keepSchema = true)
    (hpred : pk.isType = true ∨ decide (pk.attr ∈ inp.preds) = true) :
    processKV restoreTs st inp kv =
      (match (if inp.version = 0 then
               (if pk.isType then
                 match typeUpdateUnmarshal kv.value with
                 | .ok u =>
                   Except.ok { kv with value := typeUpdateMarshal (appendNamespaceUpd u) }
                 | .error e => Except.error e
                else Except.ok kv)
              else if inp.version = 2103 then changeFormat pk kv
              else Except.ok kv : Except Unit KV) with
       | .error _ =>
         Except.ok ({ maxUid := max st.maxUid pk.uid, maxNs := max st.maxNs ns }, [])
       | .ok kv1 =>
         Except.ok ({ maxUid := max st.maxUid pk.uid, maxNs := max st.maxNs ns },
           [toBuffer { kv1 with streamId := 0, version := restoreTs, key := rk }
             kv.version])) := by
  simp only [processKV, hm, hfb, hp]
  rw [if_neg (by simp [hks]), if_neg ?hpred2, if_neg ?hmeta, if_pos trivial]
  case hpred2 =>
    rcases hpred with hpt | hin
    · simp [hpt]
    · simp [hin]
  case hmeta =>
    simp [bitSchemaPosting, bitEmptyPosting, bitCompletePosting, bitDeltaPosting]

/-- C6.  For a schema record passing the filters, the value rewrite is
selected by the archive version: version 0 prepends the galaxy namespace
tag to a type update's name and field predicates (non-type keys pass
through), version 2103 rewrites schema-update and type-update attributes
from the `<ns bytes>|<attr>` format to the `<ns hex>-<attr>` format, and
version ≥ 2105 leaves the value unchanged; in every case the embedded
stream id is reset to zero in the single written entry. -/
theorem processKV_schema_version_migrations (restoreTs : Nat) (st : PState)
    (inp : LoadBackupInput) (kv : KV) (rk : List Nat) (ns : Nat) (pk : ParsedKey)
    (hfb : fromBackupKey kv.key = .ok (rk, ns)) (hp : xParse rk = .ok pk)
    (hm : kv.userMeta = [bitSchemaPosting]) (hks : inp.keepSchema = true)
    (hpred : pk.isType = true ∨ decide (pk.attr ∈ inp.preds) = true) :
    (2105 ≤ inp.version →
      processKV restoreTs st inp kv =
        .ok ({ maxUid := max st.maxUid pk.uid, maxNs := max st.maxNs ns },
          [toBuffer { kv with streamId := 0, version := restoreTs, key := rk }
            kv.version])) ∧
    (inp.version = 0 → pk.isType = false →
      processKV restoreTs st inp kv =
        .ok ({ maxUid := max st.maxUid pk.uid, maxNs := max st.maxNs ns },
          [toBuffer { kv with streamId := 0, version := restoreTs, key := rk }
            kv.version])) ∧
    (inp.version = 0 → pk.isType = true →
      ∀ u, typeUpdateUnmarshal kv.value = .ok u →
      processKV restoreTs st inp kv =
        .ok ({ maxUid := max st.maxUid pk.uid, maxNs := max st.maxNs ns },
          [toBuffer
            { kv with
                value := typeUpdateMarshal (appendNamespaceUpd u),
                streamId := 0,
                version := restoreTs,
                key := rk }
            kv.version])) ∧
    (inp.version = 2103 → pk.isSchema = true →
      ∀ u p2, schemaUpdateUnmarshal kv.value = .ok u → attrFrom2103 u.predicate = .ok p2 →
      processKV restoreTs st inp kv =
        .ok ({ maxUid := max st.maxUid pk.uid, maxNs := max st.maxNs ns },
          [toBuffer
            { kv with
                value := schemaUpdateMarshal { predicate := p2 },
                streamId := 0,
                version := restoreTs,
                key := rk }
            kv.version])) ∧
    (inp.version = 2103 → pk.isType = true →
      ∀ u tn fs, typeUpdateUnmarshal kv.value = .ok u → attrFrom2103 u.typeName = .ok tn →
        u.fields.mapM attrFrom2103 = .ok fs →
      processKV restoreTs st inp kv =
        .ok ({ maxUid := max st.maxUid pk.uid, maxNs := max st.maxNs ns },
          [toBuffer
            { kv with
                value := typeUpdateMarshal { typeName := tn, fields := fs },
                streamId := 0,
                version := restoreTs,
                key := rk }
            kv.version])) := by
  have hbase := processKV_schema_branch restoreTs st inp kv rk ns pk hfb hp hm hks hpred
  refine ⟨?_, ?_, ?_, ?_, ?_⟩
  · intro hv
    rw [hbase, if_neg (by omega), if_neg (by omega)]
  · intro hv0 hpt
    rw [hbase, if_pos hv0, if_neg (by simp [hpt])]
  · intro hv0 hpt u hu
    rw [hbase, if_pos hv0, if_pos hpt, hu]
  · intro hv hsch u p2 hu hp2
    rw [hbase, if_neg (by omega), if_pos hv]
    unfold changeFormat
    rw [if_pos hsch]
    simp only [hu, hp2]
  · intro hv hpt u tn fs hu htn hfs
    rw [hbase, if_neg (by omega), if_pos hv]
    unfold changeFormat
    rw [if_neg (by simp [isSchema_false_of_isType hpt]), if_pos hpt]
    simp only [hu, htn, hfs]

def c6bk : BackupKey :=
  { ns := 2, kind := .schemaKey, attr := [112], uid := 0, hasStartUid := false }

def c6rk : List Nat := nativeKeyEncode c6bk

def c6pk : ParsedKey :=
  { kind := .schemaKey, attr := [112], uid := 0, hasStartUid := false }

def c6kv : KV :=
  { key := backupKeyMarshal c6bk, value := schemaUpdateMarshal { predicate := [112] },
    userMeta := [bitSchemaPosting], version := 33, streamId := 5 }

def c6inp : LoadBackupInput :=
  { preds := [[112]], dropNs := [], version := 2105, keepSchema := true }

theorem processKV_schema_version_migrations_witness :
    processKV 77 ⟨0, 0⟩ c6inp c6kv =
      .ok (⟨0, 2⟩, [toBuffer { c6kv with streamId := 0, version := 77, key := c6rk }
        c6kv.version]) :=
  (processKV_schema_version_migrations 77 ⟨0, 0⟩ c6inp c6kv c6rk 2 c6pk rfl rfl rfl rfl
    (Or.inr (by decide))).1 (by decide)

/-- C7.  If unmarshalling or rewriting a schema/type value fails during a
version-0 or version-2103 migration, `processKV` skips the record and
returns success (the failure is logged), so batch processing continues —
unlike other decoding errors, which are fatal. -/
theorem processKV_migration_failure_skips (restoreTs : Nat) (st : PState)
    (inp : LoadBackupInput) (kv : KV) (rk : List Nat) (ns : Nat) (pk : ParsedKey)
    (hfb : fromBackupKey kv.key = .ok (rk, ns)) (hp : xParse rk = .ok pk)
    (hm : kv.userMeta = [bitSchemaPosting]) (hks : inp.keepSchema = true)
    (hpred : pk.isType = true ∨ decide (pk.attr ∈ inp.preds) = true)
    (hfail : (inp.version = 0 ∧ pk.isType = true ∧
        typeUpdateUnmarshal kv.value = .error ()) ∨
      (inp.version = 2103 ∧ changeFormat pk kv = .error ())) :
    processKV restoreTs st inp kv =
      .ok ({ maxUid := max st.maxUid pk.uid, maxNs := max st.maxNs ns }, []) := by
  rw [processKV_schema_branch restoreTs st inp kv rk ns pk hfb hp hm hks hpred]
  rcases hfail with ⟨hv0, hpt, hu⟩ | ⟨hv, hcf⟩
  · rw [if_pos hv0, if_pos hpt, hu]
  · rw [if_neg (by omega), if_pos hv, hcf]

def c7bk : BackupKey :=
  { ns := 0, kind := .typeKey, attr := [116], uid := 3, hasStartUid := false }

def c7rk : List Nat := nativeKeyEncode c7bk

def c7pk : ParsedKey :=
  { kind := .typeKey, attr := [116], uid := 3, hasStartUid := false }

def c7kv : KV :=
  { key := backupKeyMarshal c7bk, value := [9, 9], userMeta := [bitSchemaPosting],
    version := 4, streamId := 0 }

def c7inp : LoadBackupInput :=
  { preds := [], dropNs := [], version := 0, keepSchema := true }

theorem processKV_migration_failure_skips_witness :
    processKV 5 ⟨0, 0⟩ c7inp c7kv = .ok (⟨3, 0⟩, []) :=
  processKV_migration_failure_skips 5 ⟨0, 0⟩ c7inp c7kv c7rk 0 c7pk rfl rfl rfl rfl
    (Or.inl rfl) (Or.inl ⟨rfl, rfl, rfl⟩)

/-! ## C5: when `processKV` skips a record -/

/-- The posting-record meta test of the claim (empty, complete or delta
posting). -/
def postingMetaB (kv : KV) : Bool :=
  decide (kv.userMeta = [bitEmptyPosting]) || decide (kv.userMeta = [bitCompletePosting]) ||
    decide (kv.userMeta = [bitDeltaPosting])

/-- The three filter cases exactly as the claim lists them: schema filter,
predicate filter, dropped-namespace filter. -/
def filterSkip (inp : LoadBackupInput) (pk : ParsedKey) (ns : Nat) (kv : KV) : Bool :=
  (!inp.keepSchema && (pk.isSchema || pk.isType)) ||
  (!pk.isType && !(decide (pk.attr ∈ inp.preds))) ||
  (postingMetaB kv && decide (ns ∈ inp.dropNs))

/-- The claim's skip condition: the record decodes and one of the three
filter cases holds (with the single-byte meta that `processKV` requires
before filtering). -/
def claimedSkip (inp : LoadBackupInput) (kv : KV) : Bool :=
  match fromBackupKey kv.key with
  | .error _ => false
  | .ok (rk, ns) =>
    match xParse rk with
    | .error _ => false
    | .ok pk => decide (kv.userMeta.length = 1) && filterSkip inp pk ns kv

/-- The version-migration failure test (version 0 on a type key whose
value does not unmarshal; version 2103 whose format rewrite fails). -/
def migrationFails (inp : LoadBackupInput) (pk : ParsedKey) (kv : KV) : Bool :=
  if inp.version = 0 then pk.isType && isError (typeUpdateUnmarshal kv.value)
  else if inp.version = 2103 then isError (changeFormat pk kv)
  else false

/-- The amended skip condition: the claim's three filter cases, or a
schema record whose version migration fails. -/
def skipSpec (inp : LoadBackupInput) (kv : KV) : Bool :=
  match fromBackupKey kv.key with
  | .error _ => false
  | .ok (rk, ns) =>
    match xParse rk with
    | .error _ => false
    | .ok pk =>
      decide (kv.userMeta.length = 1) &&
        (filterSkip inp pk ns kv ||
          (decide (kv.userMeta = [bitSchemaPosting]) && migrationFails inp pk kv))

/-- C5 (amended).  `processKV` returns success with no entry emitted in
exactly the claim's three filter cases plus one more: a schema record
whose version-migration rewrite fails (which is logged and skipped). -/
theorem processKV_skip_iff (restoreTs : Nat) (st : PState) (inp : LoadBackupInput)
    (kv : KV) :
    (∃ st1, processKV restoreTs st inp kv = .ok (st1, [])) ↔ skipSpec inp kv = true := by
  constructor
  · rintro ⟨st1, h⟩
    rcases hum : kv.userMeta with _ | ⟨meta, rest⟩
    · simp only [processKV, hum] at h
      exact Except.noConfusion h
    rcases rest with _ | ⟨m2, rest2⟩
    case cons.cons =>
      simp only [processKV, hum] at h
      exact Except.noConfusion h
    rcases hfb : fromBackupKey kv.key with e | ⟨rk, ns⟩
    · simp only [processKV, hum, hfb] at h
      exact Except.noConfusion h
    rcases hp : xParse rk with e | pk
    · simp only [processKV, hum, hfb, hp] at h
      exact Except.noConfusion h
    simp only [processKV, hum, hfb, hp] at h
    simp only [skipSpec, hfb, hp, hum]
    rw [show decide (([meta] : List Nat).length = 1) = true from by simp, Bool.true_and]
    by_cases h1 : (!inp.keepSchema && (pk.isSchema || pk.isType)) = true
    · simp [filterSkip, h1]
    rw [if_neg h1] at h
    by_cases h2 : (!pk.isType && !decide (pk.attr ∈ inp.preds)) = true
    · simp [filterSkip, h2]
    rw [if_neg h2] at h
    by_cases h3 : meta = bitEmptyPosting ∨ meta = bitCompletePosting ∨ meta = bitDeltaPosting
    · rw [if_pos h3] at h
      by_cases h4 : decide (ns ∈ inp.dropNs) = true
      · have hpm : postingMetaB kv = true := by
          rcases h3 with rfl | rfl | rfl <;> simp [postingMetaB, hum]
        simp [filterSkip, hpm, h4]
      rw [if_neg h4] at h
      rcases hpl : backupPostingListUnmarshal kv.value with e | pl
      · simp only [hpl] at h
        exact Except.noConfusion h
      simp only [hpl] at h
      by_cases h5 : (!shouldSplit pl || pk.hasStartUid || decide (0 < pl.splits.length)) = true
      · rw [if_pos h5] at h
        simp only [Except.ok.injEq, Prod.mk.injEq] at h
        exact List.noConfusion h.2
      rw [if_neg h5] at h
      rcases hro : rollup rk pl kv.version with e | kvs
      · simp only [hro] at h
        exact Except.noConfusion h
      simp only [hro, Except.ok.injEq, Prod.mk.injEq] at h
      have hkvs : kvs ≠ [] := by
        unfold rollup at hro
        injection hro with hh
        rw [← hh]
        simp
      exact absurd (List.map_eq_nil_iff.mp h.2) hkvs
    rw [if_neg h3] at h
    by_cases h6 : meta = bitSchemaPosting
    · rw [if_pos h6] at h
      subst h6
      by_cases hv0 : inp.version = 0
      · rw [if_pos hv0] at h
        by_cases hpt : pk.isType = true
        · rw [if_pos hpt] at h
          rcases htu : typeUpdateUnmarshal kv.value with e | u
          · have hmf : migrationFails inp pk kv = true := by
              simp [migrationFails, hv0, hpt, htu, isError]
            simp [hmf]
          · simp only [htu, Except.ok.injEq, Prod.mk.injEq] at h
            exact List.noConfusion h.2
        · rw [if_neg hpt] at h
          simp only [Except.ok.injEq, Prod.mk.injEq] at h
          exact List.noConfusion h.2
      rw [if_neg hv0] at h
      by_cases hv3 : inp.version = 2103
      · rw [if_pos hv3] at h
        rcases hcf : changeFormat pk kv with e | kv1
        · have hmf : migrationFails inp pk kv = true := by
            simp [migrationFails, hv0, hv3, hcf, isError]
          simp [hmf]
        · simp only [hcf, Except.ok.injEq, Prod.mk.injEq] at h
          exact List.noConfusion h.2
      rw [if_neg hv3] at h
      simp only [Except.ok.injEq, Prod.mk.injEq] at h
      exact List.noConfusion h.2
    · rw [if_neg h6] at h
      exact Except.noConfusion h
  · intro hss
    rcases hfb : fromBackupKey kv.key with e | ⟨rk, ns⟩
    · simp only [skipSpec, hfb] at hss
      exact Bool.noConfusion hss
    rcases hp : xParse rk with e | pk
    · simp only [skipSpec, hfb, hp] at hss
      exact Bool.noConfusion hss
    simp only [skipSpec, hfb, hp] at hss
    rcases hum : kv.userMeta with _ | ⟨meta, rest⟩
    · rw [hum] at hss
      simp at hss
    rcases rest with _ | ⟨m2, rest2⟩
    case cons.cons =>
      rw [hum] at hss
      simp at hss
    rw [hum] at hss
    rw [show decide (([meta] : List Nat).length = 1) = true from by simp, Bool.true_and] at hss
    simp only [processKV, hum, hfb, hp]
    by_cases h1 : (!inp.keepSchema && (pk.isSchema || pk.isType)) = true
    · exact ⟨_, by rw [if_pos h1]⟩
    rw [if_neg h1]
    by_cases h2 : (!pk.isType && !decide (pk.attr ∈ inp.preds)) = true
    · exact ⟨_, by rw [if_pos h2]⟩
    rw [if_neg h2]
    rw [Bool.or_eq_true] at hss
    rcases hss with hfs | hmig
    · -- one of the three filter cases; the first two are excluded
      unfold filterSkip at hfs
      rw [Bool.or_eq_true, Bool.or_eq_true] at hfs
      rcases hfs with (hfs | hfs) | hfs
      · exact absurd hfs h1
      · exact absurd hfs h2
      rw [Bool.and_eq_true] at hfs
      obtain ⟨hpm, hdn⟩ := hfs
      have h3 : meta = bitEmptyPosting ∨ meta = bitCompletePosting ∨ meta = bitDeltaPosting := by
        unfold postingMetaB at hpm
        rw [hum] at hpm
        rw [Bool.or_eq_true, Bool.or_eq_true] at hpm
        rcases hpm with (hx | hx) | hx
        · left
          simp only [decide_eq_true_eq, List.cons.injEq] at hx
          exact hx.1
        · right; left
          simp only [decide_eq_true_eq, List.cons.injEq] at hx
          exact hx.1
        · right; right
          simp only [decide_eq_true_eq, List.cons.injEq] at hx
          exact hx.1
      rw [if_pos h3, if_pos hdn]
      exact ⟨_, rfl⟩
    · rw [Bool.and_eq_true] at hmig
      obtain ⟨hsm, hmf⟩ := hmig
      rw [decide_eq_true_eq] at hsm
      injection hsm with hsm1 hsm2
      subst hsm1
      rw [if_neg (by simp [bitSchemaPosting, bitEmptyPosting, bitCompletePosting,
        bitDeltaPosting]), if_pos rfl]
      unfold migrationFails at hmf
      by_cases hv0 : inp.version = 0
      · rw [if_pos hv0] at hmf
        rw [if_pos hv0]
        rw [Bool.and_eq_true] at hmf
        obtain ⟨hpt, herr⟩ := hmf
        rcases htu : typeUpdateUnmarshal kv.value with e | u
        · rw [if_pos hpt]
          exact ⟨_, rfl⟩
        · rw [htu] at herr
          simp [isError] at herr
      rw [if_neg hv0] at hmf
      rw [if_neg hv0]
      by_cases hv3 : inp.version = 2103
      · rw [if_pos hv3] at hmf
        rw [if_pos hv3]
        rcases hcf : changeFormat pk kv with e | kv1
        · exact ⟨_, rfl⟩
        · rw [hcf] at hmf
          simp [isError] at hmf
      rw [if_neg hv3] at hmf
      exact absurd hmf (by simp)

def c5bk : BackupKey :=
  { ns := 0, kind := .typeKey, attr := [116], uid := 0, hasStartUid := false }

def c5kv : KV :=
  { key := backupKeyMarshal c5bk, value := [255], userMeta := [bitSchemaPosting],
    version := 7, streamId := 0 }

def c5inp : LoadBackupInput :=
  { preds := [], dropNs := [], version := 0, keepSchema := true }

/-- C5 counterexample: a version-0 type record with an unparsable value is
skipped with success although none of the claim's three filter cases
holds, so the claimed "exactly" fails. -/
theorem processKV_skip_iff_cex :
    processKV 9 ⟨0, 0⟩ c5inp c5kv = .ok (⟨0, 0⟩, []) ∧
      claimedSkip c5inp c5kv = false := by
  exact ⟨rfl, rfl⟩

/-! ## Planner invariants (C4, C9) -/

/-- Every archive record in the trace is bounded by the current maxima. -/
def handedBounds (ls : LoopState) : Prop :=
  ∀ x ∈ ls.handed, ∀ kv ∈ x.2.2, ∀ rk ns pk,
    fromBackupKey kv.key = .ok (rk, ns) → xParse rk = .ok pk →
      pk.uid ≤ ls.pstate.maxUid ∧ ns ≤ ls.pstate.maxNs

/-- A handed descriptor keeps schema exactly for the newest manifest. -/
def handedKeep (ls : LoopState) : Prop :=
  ∀ x ∈ ls.handed, x.2.1.keepSchema = decide (x.1 = 0)

theorem processList_state (restoreTs : Nat) (inp : LoadBackupInput) :
    ∀ (l : List KV) (st st1 : PState) (es : List MapEnt),
      processList restoreTs inp st l = .ok (st1, es) →
      (st.maxUid ≤ st1.maxUid ∧ st.maxNs ≤ st1.maxNs) ∧
      ∀ kv ∈ l, ∀ rk ns pk, fromBackupKey kv.key = .ok (rk, ns) → xParse rk = .ok pk →
        pk.uid ≤ st1.maxUid ∧ ns ≤ st1.maxNs
  | [], st, st1, es, h => by
    simp only [processList, Except.ok.injEq, Prod.mk.injEq] at h
    obtain ⟨h1, -⟩ := h
    subst h1
    exact ⟨⟨le_refl _, le_refl _⟩, fun kv hkv => absurd hkv (List.not_mem_nil kv)⟩
  | kv :: rest, st, st1, es, h => by
    rcases hk : processKV restoreTs st inp kv with e | p
    · simp only [processList, hk] at h
      exact Except.noConfusion h
    obtain ⟨stm, es1⟩ := p
    rcases hrest : processList restoreTs inp stm rest with e | q
    · simp only [processList, hk, hrest] at h
      exact Except.noConfusion h
    obtain ⟨st2, es2⟩ := q
    simp only [processList, hk, hrest, Except.ok.injEq, Prod.mk.injEq] at h
    obtain ⟨h1, -⟩ := h
    subst h1
    obtain ⟨rkx, nsx, pkx, hfbx, hpx, hstm, -⟩ :=
      processKV_ok_inv restoreTs st inp kv stm es1 hk
    obtain ⟨⟨hmu, hmn⟩, htail⟩ := processList_state restoreTs inp rest stm st2 es2 hrest
    refine ⟨⟨?_, ?_⟩, ?_⟩
    · exact le_trans (by rw [hstm]; exact le_max_left _ _) hmu
    · exact le_trans (by rw [hstm]; exact le_max_left _ _) hmn
    · intro kv2 hkv2 rk ns pk hfb hp
      rcases List.mem_cons.mp hkv2 with rfl | hkv2'
      · rw [hfbx] at hfb
        injection hfb with hfb
        injection hfb with hfb1 hfb2
        subst hfb1
        subst hfb2
        rw [hpx] at hp
        injection hp with hp
        subst hp
        constructor
        · exact le_trans (by rw [hstm]; exact le_max_right _ _) hmu
        · exact le_trans (by rw [hstm]; exact le_max_right _ _) hmn
      · exact htail kv2 hkv2' rk ns pk hfb hp

theorem processGroups_state (restoreTs gid : Nat) (preds0 : Nat → List (List Nat))
    (m : Manifest) (i : Nat) :
    ∀ (gs : List Nat) (ls ls1 : LoopState),
      processGroups restoreTs gid preds0 m i ls gs = .ok ls1 →
      (ls.pstate.maxUid ≤ ls1.pstate.maxUid ∧ ls.pstate.maxNs ≤ ls1.pstate.maxNs) ∧
      ls1.maxBannedNs = ls.maxBannedNs ∧
      (handedBounds ls → handedBounds ls1) ∧ (handedKeep ls → handedKeep ls1)
  | [], ls, ls1, h => by
    simp only [processGroups, Except.ok.injEq] at h
    subst h
    exact ⟨⟨le_refl _, le_refl _⟩, rfl, id, id⟩
  | g :: gs, ls, ls1, h => by
    rw [processGroups] at h
    split at h
    · exact processGroups_state restoreTs gid preds0 m i gs ls ls1 h
    · rcases heq : processList restoreTs
          { preds := (preds0 gid).filter (fun p => !(decide (p ∈ ls.dropAttr))),
            dropNs := ls.dropNs, version := m.version, keepSchema := decide (i = 0) }
          ls.pstate (m.archive gid) with e | q
      · simp only [heq] at h
        exact Except.noConfusion h
      obtain ⟨st1, es⟩ := q
      simp only [heq] at h
      obtain ⟨⟨hu1, hn1⟩, hrec⟩ := processList_state restoreTs _ (m.archive gid)
        ls.pstate st1 es heq
      have hnext := processGroups_state restoreTs gid preds0 m i gs _ ls1 h
      obtain ⟨⟨hu2, hn2⟩, hban, hbnd, hkeep⟩ := hnext
      refine ⟨⟨le_trans hu1 hu2, le_trans hn1 hn2⟩, hban, ?_, ?_⟩
      · intro hb
        apply hbnd
        intro x hx kv hkv rk ns pk hfb hp
        rcases List.mem_append.mp hx with hx' | hx'
        · obtain ⟨b1, b2⟩ := hb x hx' kv hkv rk ns pk hfb hp
          exact ⟨le_trans b1 hu1, le_trans b2 hn1⟩
        · rcases List.mem_singleton.mp hx' with rfl
          exact hrec kv hkv rk ns pk hfb hp
      · intro hk
        apply hkeep
        intro x hx
        rcases List.mem_append.mp hx with hx' | hx'
        · exact hk x hx'
        · rcases List.mem_singleton.mp hx' with rfl
          rfl

theorem applyDropOps_frame :
    ∀ (ops : List DropOperation) (ls ls1 : LoopState),
      applyDropOps ls ops = .ok ls1 →
      ls1.pstate = ls.pstate ∧ ls1.handed = ls.handed ∧ ls.maxBannedNs ≤ ls1.maxBannedNs
  | [], ls, ls1, h => by
    simp only [applyDropOps, Except.ok.injEq] at h
    subst h
    exact ⟨rfl, rfl, le_refl _⟩
  | op :: ops, ls, ls1, h => by
    rw [applyDropOps] at h
    split at h
    · exact applyDropOps_frame ops { ls with dropAll := true } ls1 h
    · split at h
      · exact applyDropOps_frame ops { ls with dropAll := true } ls1 h
      · rcases hn : parseUint op.dropValue with e | n
        · simp only [hn] at h
          exact Except.noConfusion h
        simp only [hn] at h
        exact applyDropOps_frame ops { ls with dropNs := ls.dropNs ++ [n] } ls1 h
    · exact applyDropOps_frame ops { ls with dropAttr := ls.dropAttr ++ [op.dropValue] } ls1 h
    · rcases hn : parseUint op.dropValue with e | n
      · simp only [hn] at h
        exact Except.noConfusion h
      simp only [hn] at h
      obtain ⟨h1, h2, h3⟩ := applyDropOps_frame ops
        { ls with maxBannedNs := max ls.maxBannedNs n } ls1 h
      exact ⟨h1, h2, le_trans (le_max_left _ _) h3⟩

theorem runManifests_state (restoreTs gid incrFrom : Nat) (preds0 : Nat → List (List Nat)) :
    ∀ (ms : List Manifest) (i : Nat) (ls fin : LoopState),
      runManifests restoreTs gid incrFrom preds0 ms i ls = .ok fin →
      (handedBounds ls → handedBounds fin) ∧ (handedKeep ls → handedKeep fin)
  | [], i, ls, fin, h => by
    simp only [runManifests, Except.ok.injEq] at h
    subst h
    exact ⟨id, id⟩
  | m :: rest, i, ls, fin, h => by
    rw [runManifests] at h
    split at h
    · injection h with h
      subst h
      exact ⟨id, id⟩
    split at h
    · injection h with h
      subst h
      exact ⟨id, id⟩
    split at h
    · exact runManifests_state restoreTs gid incrFrom preds0 rest (i + 1) ls fin h
    rcases hpg : processGroups restoreTs gid preds0 m i ls m.groups with e | ls1
    · simp only [hpg] at h
      exact Except.noConfusion h
    simp only [hpg] at h
    rcases hdo : applyDropOps ls1 m.dropOperations with e | ls2
    · simp only [hdo] at h
      exact Except.noConfusion h
    simp only [hdo] at h
    obtain ⟨-, -, hbnd, hkeep⟩ := processGroups_state restoreTs gid preds0 m i m.groups ls ls1 hpg
    obtain ⟨hps, hhd, -⟩ := applyDropOps_frame m.dropOperations ls1 ls2 hdo
    obtain ⟨hbnd2, hkeep2⟩ :=
      runManifests_state restoreTs gid incrFrom preds0 rest (i + 1) ls2 fin h
    constructor
    · intro hb
      apply hbnd2
      unfold handedBounds
      rw [hps, hhd]
      exact hbnd hb
    · intro hk
      apply hkeep2
      unfold handedKeep
      rw [hhd]
      exact hkeep hk

/-- C4.  The `mapResult` returned by `RunMapper` bounds every processed
record: `maxUid` is at least the parsed key's uid of every record handed
to the mapper, and `maxNs` is at least every source record's namespace
and at least `maxBannedNs`, the largest namespace banned via `DROP_NS`. -/
theorem RunMapper_result_bounds (req : RestoreRequest) (manifests : List Manifest)
    (res : MapResult) (tr : LoopState)
    (h : RunMapper req manifests = .ok (res, tr)) :
    (∀ x ∈ tr.handed, ∀ kv ∈ x.2.2, ∀ rk ns pk,
      fromBackupKey kv.key = .ok (rk, ns) → xParse rk = .ok pk →
        pk.uid ≤ res.maxUid ∧ ns ≤ res.maxNs) ∧
    tr.maxBannedNs ≤ res.maxNs := by
  unfold RunMapper at h
  by_cases hu : (!req.uriOk) = true
  · rw [if_pos hu] at h
    exact Except.noConfusion h
  rw [if_neg hu] at h
  by_cases ht : req.restoreTs = 0
  · rw [if_pos ht] at h
    exact Except.noConfusion h
  rw [if_neg ht] at h
  rcases manifests with _ | ⟨m0, rest⟩
  · simp only [Except.ok.injEq, Prod.mk.injEq] at h
    obtain ⟨hres, htr⟩ := h
    subst htr
    subst hres
    refine ⟨?_, le_max_right _ _⟩
    intro x hx
    exact absurd hx (List.not_mem_nil x)
  · rcases hrun : runManifests req.restoreTs req.groupId req.incrementalFrom
        m0.predsInGroup (m0 :: rest) 0 initLoopState with e | fin
    · simp only [hrun] at h
      exact Except.noConfusion h
    simp only [hrun, Except.ok.injEq, Prod.mk.injEq] at h
    obtain ⟨hres, htr⟩ := h
    subst htr
    subst hres
    have hfin := runManifests_state req.restoreTs req.groupId req.incrementalFrom
      m0.predsInGroup (m0 :: rest) 0 initLoopState fin hrun
    have hb : handedBounds fin :=
      hfin.1 (fun x hx => absurd hx (List.not_mem_nil x))
    refine ⟨?_, le_max_right _ _⟩
    intro x hx kv hkv rk ns pk hfb hp
    obtain ⟨b1, b2⟩ := hb x hx kv hkv rk ns pk hfb hp
    exact ⟨b1, le_trans b2 (le_max_left _ _)⟩

def c4bk : BackupKey :=
  { ns := 1, kind := .dataKey, attr := [98], uid := 7, hasStartUid := false }

def c4rk : List Nat := nativeKeyEncode c4bk

def c4pk : ParsedKey :=
  { kind := .dataKey, attr := [98], uid := 7, hasStartUid := false }

def c4kv : KV :=
  { key := backupKeyMarshal c4bk, value := postingListMarshal { size := 2, splits := [] },
    userMeta := [bitCompletePosting], version := 10, streamId := 0 }

def c4m : Manifest :=
  { backupNum := 1, validReadTs := 5, groups := [3], predsInGroup := fun _ => [[98]],
    compression := "snappy", version := 2105, dropOperations := [],
    archive := fun _ => [c4kv] }

def c4req : RestoreRequest :=
  { restoreTs := 100, groupId := 3, incrementalFrom := 0, uriOk := true }

def c4inpExp : LoadBackupInput :=
  { preds := [[98]], dropNs := [], version := 2105, keepSchema := true }

def c4out : MapResult × LoopState :=
  (RunMapper c4req [c4m]).toOption.getD
    (⟨0, 0, false, [], []⟩, initLoopState)

theorem RunMapper_result_bounds_witness :
    (c4pk.uid ≤ c4out.1.maxUid ∧ 1 ≤ c4out.1.maxNs) ∧
      c4out.2.maxBannedNs ≤ c4out.1.maxNs :=
  ⟨(RunMapper_result_bounds c4req [c4m] c4out.1 c4out.2 rfl).1
      (0, c4inpExp, [c4kv]) (by decide) c4kv (by decide) c4rk 1 c4pk rfl rfl,
   (RunMapper_result_bounds c4req [c4m] c4out.1 c4out.2 rfl).2⟩

/-- C9 (amended).  A load descriptor handed to `mapper.Map` has
`keepSchema` true precisely when it was built from the newest manifest
(index 0); when the newest manifest is skipped (no valid read timestamp,
no groups, or no matching group), no handed descriptor keeps schema, so
at most — not exactly — one processed archive has `keepSchema` true. -/
theorem RunMapper_keepSchema_newest (req : RestoreRequest) (manifests : List Manifest)
    (res : MapResult) (tr : LoopState)
    (h : RunMapper req manifests = .ok (res, tr)) :
    ∀ x ∈ tr.handed, x.2.1.keepSchema = decide (x.1 = 0) := by
  unfold RunMapper at h
  by_cases hu : (!req.uriOk) = true
  · rw [if_pos hu] at h
    exact Except.noConfusion h
  rw [if_neg hu] at h
  by_cases ht : req.restoreTs = 0
  · rw [if_pos ht] at h
    exact Except.noConfusion h
  rw [if_neg ht] at h
  rcases manifests with _ | ⟨m0, rest⟩
  · simp only [Except.ok.injEq, Prod.mk.injEq] at h
    obtain ⟨-, htr⟩ := h
    subst htr
    intro x hx
    exact absurd hx (List.not_mem_nil x)
  · rcases hrun : runManifests req.restoreTs req.groupId req.incrementalFrom
        m0.predsInGroup (m0 :: rest) 0 initLoopState with e | fin
    · simp only [hrun] at h
      exact Except.noConfusion h
    simp only [hrun, Except.ok.injEq, Prod.mk.injEq] at h
    obtain ⟨-, htr⟩ := h
    subst htr
    have hfin := runManifests_state req.restoreTs req.groupId req.incrementalFrom
      m0.predsInGroup (m0 :: rest) 0 initLoopState fin hrun
    exact hfin.2 (fun x hx => absurd hx (List.not_mem_nil x))

def c9wm : Manifest :=
  { backupNum := 1, validReadTs := 5, groups := [3], predsInGroup := fun _ => [],
    compression := "gzip", version := 2105, dropOperations := [],
    archive := fun _ => [] }

def c9wreq : RestoreRequest :=
  { restoreTs := 50, groupId := 3, incrementalFrom := 0, uriOk := true }

def c9winp : LoadBackupInput :=
  { preds := [], dropNs := [], version := 2105, keepSchema := true }

def c9wout : MapResult × LoopState :=
  (RunMapper c9wreq [c9wm]).toOption.getD
    (⟨0, 0, false, [], []⟩, initLoopState)

theorem RunMapper_keepSchema_newest_witness :
    c9winp.keepSchema = decide ((0 : Nat) = 0) :=
  RunMapper_keepSchema_newest c9wreq [c9wm] c9wout.1 c9wout.2 rfl
    (0, c9winp, ([] : List KV)) (by decide)

def c9m0 : Manifest :=
  { backupNum := 2, validReadTs := 0, groups := [3], predsInGroup := fun _ => [],
    compression := "gzip", version := 2105, dropOperations := [],
    archive := fun _ => [] }

def c9m1 : Manifest :=
  { backupNum := 1, validReadTs := 5, groups := [3], predsInGroup := fun _ => [],
    compression := "gzip", version := 2105, dropOperations := [],
    archive := fun _ => [] }

def c9req : RestoreRequest :=
  { restoreTs := 50, groupId := 3, incrementalFrom := 0, uriOk := true }

/-- C9 counterexample: when the newest manifest has no valid read
timestamp it is skipped, and the one archive actually processed (from the
older manifest) is handed a descriptor with `keepSchema = false` — so
`keepSchema` is not true for exactly one processed archive. -/
theorem RunMapper_keepSchema_cex :
    (RunMapper c9req [c9m0, c9m1]).toOption.map
      (fun r => r.2.handed.map (fun x => x.2.1.keepSchema)) = some [false] := by
  rfl

/-- C8.  Configuration errors are fatal and surfaced before any archive
data is processed: `RunMapper` errors on a zero restore timestamp, and a
compression string other than "snappy", "gzip" or "" (which means gzip)
records an error that fails the reader construction. -/
theorem config_errors_fatal (req : RestoreRequest) (manifests : List Manifest)
    (br : BackupReader) (comp : String)
    (hts : req.restoreTs = 0)
    (hc1 : comp ≠ "snappy") (hc2 : comp ≠ "gzip") (hc3 : comp ≠ "") :
    RunMapper req manifests = .error () ∧
      (withCompression br comp).err.isSome = true ∧
      withCompression br "" = withCompression br "gzip" := by
  refine ⟨?_, ?_, ?_⟩
  · unfold RunMapper
    by_cases hu : (!req.uriOk) = true
    · rw [if_pos hu]
    · rw [if_neg hu, if_pos hts]
  · unfold withCompression
    rw [if_neg hc1, if_neg (by simp [hc2, hc3])]
    unfold setErr
    split
    · rfl
    · next hne =>
      exact Option.isSome_iff_ne_none.mpr hne
  · unfold withCompression
    rw [if_neg (show ¬("" : String) = "snappy" by decide),
      if_neg (show ¬("gzip" : String) = "snappy" by decide),
      if_pos (show ("" : String) = "gzip" ∨ ("" : String) = "" from Or.inr rfl),
      if_pos (show ("gzip" : String) = "gzip" ∨ ("gzip" : String) = "" from Or.inl rfl)]

def c8req : RestoreRequest :=
  { restoreTs := 0, groupId := 0, incrementalFrom := 0, uriOk := true }

def c8br : BackupReader := { err := none, gzipHeaderOk := true }

theorem config_errors_fatal_witness :
    RunMapper c8req [] = .error () ∧
      (withCompression c8br "zstd").err.isSome = true ∧
      withCompression c8br "" = withCompression c8br "gzip" :=
  config_errors_fatal c8req [] c8br "zstd" rfl (by decide) (by decide) (by decide)
